/-
Verification of the declaration-analysis core of the go-ast-analyzer program:
heuristic dependency extraction from textual type fragments
(extractTypeDependencies and the per-kind DependencyExtractor strategies),
deterministic topological ordering of declarations via Kahn's algorithm with a
lexicographically sorted ready queue (TopologicalDependencyResolver's
ResolveDependencies, modelled by resolveDependencies below), and signature-driven
no-op stub synthesis with per-type zero values (parseMethodSignature,
generateZeroValues, getZeroValue, generateMethodImplementation).

Modelling conventions: Go strings are Lean Strings manipulated through their
character lists (the analysed names are ASCII, where Go's byte-wise operations
and the character-wise model coincide); Go maps are modelled by association
through the input list (insertion order with last-write-wins lookup), and the
non-deterministic map iteration order of Go is canonicalised - the Kahn loop
sorts its ready queue before every removal, and the queue-permutation lemma
proved for kahnLoopF shows the canonicalisation does not affect the result.
The loop itself is given explicit fuel; the fuel-stability theorems show any
fuel of at least kahnFuel produces the same (fixed-point) result, which is the
termination argument for the Go loop.
-/
import Mathlib

def lexLe : List Char → List Char → Bool
  | [], _ => true
  | _ :: _, [] => false
  | a :: as, b :: bs =>
    if a.toNat < b.toNat then true
    else if b.toNat < a.toNat then false
    else lexLe as bs

def strLe (a b : String) : Bool := lexLe a.data b.data

def insertSorted (s : String) : List String → List String
  | [] => [s]
  | x :: xs => if strLe s x then s :: x :: xs else x :: insertSorted s xs

def sortStrings (l : List String) : List String := l.foldr insertSorted []

def strLeP (a b : String) : Prop := strLe a b = true

def relaxAll (adj : List String) (indeg : String → Int) (queue : List String) :
    (String → Int) × List String :=
  match adj with
  | [] => (indeg, queue)
  | d :: ds =>
    relaxAll ds (fun n => if n = d then indeg n - 1 else indeg n)
      (if indeg d - 1 = 0 then queue ++ [d] else queue)

def kahnLoopF {T : Type} (lookup : String → Option T) (adj : String → List String) :
    Nat → (String → Int) → List String → List String → List T → List T × List String
  | 0, _, _, processed, result => (result, processed)
  | fuel + 1, indeg, queue, processed, result =>
    match sortStrings queue with
    | [] => (result, processed)
    | current :: rest =>
      if current ∈ processed then
        kahnLoopF lookup adj fuel indeg rest processed result
      else
        let result2 := match lookup current with
          | some it => result ++ [it]
          | none => result
        let st := relaxAll (adj current) indeg rest
        kahnLoopF lookup adj fuel st.1 st.2 (current :: processed) result2

def typeKeys {T : Type} (getName : T → String) (items : List T) : List String :=
  ((items.map getName).filter (fun n => n ≠ "")).dedup

def lookupItem {T : Type} (getName : T → String) (items : List T) (n : String) : Option T :=
  if n = "" then none else (items.filter (fun it => getName it = n)).getLast?

def extractAt {T : Type} (getName : T → String) (extract : T → List String)
    (items : List T) (n : String) : List String :=
  match lookupItem getName items n with
  | some it => extract it
  | none => []

def adjOf {T : Type} (getName : T → String) (extract : T → List String)
    (items : List T) (d : String) : List String :=
  if d ∈ typeKeys getName items then
    (typeKeys getName items).flatMap
      (fun m => List.replicate ((extractAt getName extract items m).count d) m)
  else []

def indeg0 {T : Type} (getName : T → String) (extract : T → List String)
    (items : List T) (n : String) : Int :=
  if n ∈ typeKeys getName items then
    (((extractAt getName extract items n).filter
      (fun d => d ∈ typeKeys getName items)).length : Int)
  else 0

def initQueue {T : Type} (getName : T → String) (extract : T → List String)
    (items : List T) : List String :=
  (typeKeys getName items).filter (fun k => indeg0 getName extract items k = 0)

def edgeTotal {T : Type} (getName : T → String) (extract : T → List String)
    (items : List T) : Nat :=
  ((typeKeys getName items).map (fun k => (adjOf getName extract items k).length)).sum

def kahnFuel {T : Type} (getName : T → String) (extract : T → List String)
    (items : List T) : Nat :=
  (typeKeys getName items).length * (edgeTotal getName extract items + 1) +
    (initQueue getName extract items).length

def kahnFinal {T : Type} (getName : T → String) (extract : T → List String)
    (items : List T) : List T × List String :=
  kahnLoopF (lookupItem getName items) (adjOf getName extract items)
    (kahnFuel getName extract items) (indeg0 getName extract items)
    (initQueue getName extract items) [] []

def resolveDependencies {T : Type} (getName : T → String) (extract : T → List String)
    (items : List T) : List T :=
  (kahnFinal getName extract items).1 ++
    items.filter (fun it => getName it ∉ (kahnFinal getName extract items).2)

structure Decl where
  name : String
  deps : List String
  level : Int
deriving DecidableEq

def kahnMeasure (keys : List String) (E : Nat) (processed queue : List String) : Nat :=
  (keys.filter (fun k => k ∉ processed)).length * (E + 1) + queue.length

def indegSpec (keys : List String) (adj : String → List String) (processed : List String)
    (n : String) : Int :=
  ((keys.filter (fun k => k ∉ processed)).map (fun d => ((adj d).count n : Int))).sum

structure KahnInv (keys : List String) (adj : String → List String)
    (indeg : String → Int) (queue processed : List String) : Prop where
  prNodup : processed.Nodup
  prKeys : ∀ p ∈ processed, p ∈ keys
  qKeys : ∀ x ∈ queue, x ∈ keys
  indEq : ∀ n, indeg n = indegSpec keys adj processed n
  qZero : ∀ x ∈ queue, indeg x = 0
  zeroQ : ∀ k ∈ keys, k ∉ processed → indeg k = 0 → k ∈ queue
  edgeResp : ∀ l1 p l2, processed = l1 ++ p :: l2 → ∀ d ∈ keys, p ∈ adj d → d ∈ l2

def AcyclicDeps {T : Type} (getName : T → String) (extract : T → List String)
    (items : List T) : Prop :=
  ∃ rank : String → Nat, ∀ b ∈ items, ∀ a ∈ items,
    getName a ∈ extract b → rank (getName a) < rank (getName b)

def goIsSpace (c : Char) : Bool :=
  c.toNat == 32 || c.toNat == 9 || c.toNat == 10 || c.toNat == 11 || c.toNat == 12 ||
    c.toNat == 13 || c.toNat == 133 || c.toNat == 160

def trimSpaceL (s : List Char) : List Char :=
  ((s.dropWhile goIsSpace).reverse.dropWhile goIsSpace).reverse

def startsWithL : List Char → List Char → Bool
  | [], _ => true
  | _ :: _, [] => false
  | p :: ps, c :: cs => p == c && startsWithL ps cs

def containsL (pat : List Char) : List Char → Bool
  | [] => startsWithL pat []
  | c :: cs => startsWithL pat (c :: cs) || containsL pat cs

def removeAllF (pat : List Char) : Nat → List Char → List Char
  | _, [] => []
  | 0, s => s
  | f + 1, c :: cs =>
    if !pat.isEmpty && startsWithL pat (c :: cs) then
      removeAllF pat f (List.drop (pat.length - 1) cs)
    else c :: removeAllF pat f cs

def removeAll (pat s : List Char) : List Char := removeAllF pat s.length s

def fieldsFuncAux (p : Char → Bool) : List Char → List Char → List (List Char)
  | [], acc => if acc.isEmpty then [] else [acc.reverse]
  | c :: cs, acc =>
    if p c then
      if acc.isEmpty then fieldsFuncAux p cs [] else acc.reverse :: fieldsFuncAux p cs []
    else fieldsFuncAux p cs (c :: acc)

def fieldsFunc (p : Char → Bool) (s : List Char) : List (List Char) := fieldsFuncAux p s []

def isSepChar (c : Char) : Bool :=
  c == '(' || c == ')' || c == '[' || c == ']' || c == '\x7b' || c == '\x7d' ||
    c == ',' || c == ' ' || c == '\t' || c == '\n'

def isBuiltinType (name : String) : Bool :=
  name == "bool" || name == "byte" || name == "complex64" || name == "complex128" ||
  name == "error" || name == "float32" || name == "float64" || name == "int" ||
  name == "int8" || name == "int16" || name == "int32" || name == "int64" ||
  name == "rune" || name == "string" || name == "uint" || name == "uint8" ||
  name == "uint16" || name == "uint32" || name == "uint64" || name == "uintptr" ||
  name == "interface" || name == "func" || name == "struct" || name == "any"

def isLetterUnd (c : Char) : Bool :=
  ('a' ≤ c && c ≤ 'z') || ('A' ≤ c && c ≤ 'Z') || c == '_'

def isDigitCh (c : Char) : Bool := '0' ≤ c && c ≤ '9'

def isValidIdentifier (name : String) : Bool :=
  match name.data with
  | [] => false
  | c :: cs => isLetterUnd c && cs.all (fun r => isLetterUnd r || isDigitCh r)

def cleanTypeStr (s : List Char) : List Char :=
  removeAll "<-".data (removeAll "chan ".data (removeAll "map[".data
    (removeAll "[]".data (removeAll "*".data s))))

def depOfWord (w0 : List Char) : Option String :=
  let w := trimSpaceL w0
  if w.isEmpty then none
  else
    let ws := String.mk w
    if isBuiltinType ws then none
    else if w.contains '.' then
      match List.splitOn '.' w with
      | [_, p2] => some (String.mk p2)
      | _ => none
    else if isValidIdentifier ws then some ws
    else none

def extractTypeDependencies (typeStr : String) : List String :=
  let words := fieldsFunc isSepChar (cleanTypeStr typeStr.data)
  words.foldl (fun acc w =>
    match depOfWord w with
    | some dep => if dep ∈ acc then acc else acc ++ [dep]
    | none => acc) []

def getZeroValue (typ : String) : String :=
  if startsWithL "*".data typ.data || startsWithL "[]".data typ.data ||
      startsWithL "map[".data typ.data || containsL "chan".data typ.data then "nil"
  else if typ == "bool" then "false"
  else if typ == "string" then "\"\""
  else if typ == "int" || typ == "int8" || typ == "int16" || typ == "int32" ||
      typ == "int64" || typ == "uint" || typ == "uint8" || typ == "uint16" ||
      typ == "uint32" || typ == "uint64" || typ == "uintptr" || typ == "byte" ||
      typ == "rune" then "0"
  else if typ == "float32" || typ == "float64" then "0.0"
  else if typ == "complex64" || typ == "complex128" then "0+0i"
  else if typ == "error" then "nil"
  else if containsL ".".data typ.data then "nil"
  else typ ++ "\x7b\x7d"

def isParenCh (c : Char) : Bool := c == '(' || c == ')'

def generateZeroValues (returnTypes : String) : String :=
  if returnTypes == "" then ""
  else
    let trimmed := ((returnTypes.data.dropWhile isParenCh).reverse.dropWhile isParenCh).reverse
    let types := List.splitOn ',' trimmed
    let zeroVals := types.map (fun t0 =>
      let t1 := trimSpaceL t0
      let t2 :=
        if t1.contains ' ' then
          let parts := fieldsFunc goIsSpace t1
          if parts.length ≥ 2 then (parts.getLast?).getD t1 else t1
        else t1
      getZeroValue (String.mk t2))
    String.intercalate ", " zeroVals

def findParamEnd : List Char → Nat → Int → Option Nat
  | [], _, _ => none
  | c :: cs, i, depth =>
    if c == '(' then findParamEnd cs (i + 1) (depth + 1)
    else if c == ')' then
      if depth == 0 then some i
      else findParamEnd cs (i + 1) (depth - 1)
    else findParamEnd cs (i + 1) depth

def parseMethodSignature (methodSig : String) : String × String × String :=
  let parts := List.splitOn '(' methodSig.data
  if parts.length < 2 then ("", "", "")
  else
    let name := String.mk (trimSpaceL parts.headI)
    let remainder := List.intercalate "(".data parts.tail
    match findParamEnd remainder 0 0 with
    | none => (name, "", "")
    | some paramEnd =>
      (name, String.mk (remainder.take paramEnd),
        String.mk (trimSpaceL (remainder.drop (paramEnd + 1))))

def generateMethodImplementation (methodSig implName : String) (level : Int) : String :=
  let p := parseMethodSignature methodSig
  let methodName := p.1
  let params := p.2.1
  let returns := p.2.2
  if methodName == "" then ""
  else
    let sig := "func (n *" ++ (implName ++ (") " ++ (methodName ++ ("(" ++ (params ++ ")")))))
    let sig2 := if returns != "" then sig ++ (" " ++ returns) else sig
    let zeroPart :=
      if returns != "" then
        let zv := generateZeroValues returns
        if zv != "" then "\treturn " ++ (zv ++ "\n") else ""
      else ""
    "// " ++ (methodName ++ (" is a no-op implementation (Level " ++ (toString level ++ (")\n" ++
      (sig2 ++ (" \x7b\n" ++ ("\t// TODO: Implement " ++ (methodName ++ (" (Level " ++
      (toString level ++ (")\n" ++ (zeroPart ++ "\x7d"))))))))))))

structure GoStruct where
  name : String
  pkg : String
  fields : List String
  methods : List String
  position : String
  level : Int
deriving DecidableEq

structure GoInterface where
  name : String
  pkg : String
  methods : List String
  position : String
  level : Int
deriving DecidableEq

structure GoFunction where
  name : String
  pkg : String
  receiver : String
  parameters : List String
  returns : List String
  position : String
  level : Int
deriving DecidableEq

structure GoVariable where
  name : String
  pkg : String
  type : String
  position : String
  level : Int
deriving DecidableEq

structure GoConstant where
  name : String
  pkg : String
  type : String
  value : String
  position : String
  level : Int
deriving DecidableEq

def StructDependencyExtractor.ExtractDependencies (item : GoStruct) : List String :=
  ((item.fields.flatMap extractTypeDependencies).filter (fun d => d ≠ item.name)).dedup

def InterfaceDependencyExtractor.ExtractDependencies (item : GoInterface) : List String :=
  ((item.methods.flatMap extractTypeDependencies).filter (fun d => d ≠ item.name)).dedup

def FunctionDependencyExtractor.ExtractDependencies (item : GoFunction) : List String :=
  ((if item.receiver ≠ "" then extractTypeDependencies item.receiver else []) ++
    item.parameters.flatMap extractTypeDependencies ++
    item.returns.flatMap extractTypeDependencies).dedup

def VariableDependencyExtractor.ExtractDependencies (item : GoVariable) : List String :=
  extractTypeDependencies item.type

def ConstantDependencyExtractor.ExtractDependencies (item : GoConstant) : List String :=
  extractTypeDependencies item.type

def FunctionTypeNameProvider.GetTypeName (item : GoFunction) : String :=
  if item.receiver ≠ "" then item.receiver ++ "." ++ item.name else item.name

def declAlpha : Decl := ⟨"Alpha", [], 0⟩

def declBravo : Decl := ⟨"Bravo", [], 0⟩

def declCycA : Decl := ⟨"A", ["B"], 0⟩

def declCycB : Decl := ⟨"B", ["A"], 0⟩

def declX0 : Decl := ⟨"X", [], 0⟩

def declX1 : Decl := ⟨"X", [], 1⟩

def declY : Decl := ⟨"Y", ["X"], 0⟩

def declDelta : Decl := ⟨"Delta", [], 0⟩

def declGamma : Decl := ⟨"Gamma", ["Delta"], 0⟩

def declP : Decl := ⟨"P", [], 0⟩

def declQ : Decl := ⟨"Q", ["P"], 0⟩

/-- Lexicographic comparison of character lists by code point, the order
`sort.Strings` uses on ASCII data (byte-wise comparison). -/

theorem lexLe_refl (l : List Char) : lexLe l l = true := by
  induction l with
  | nil => rfl
  | cons a as ih => simp [lexLe, ih]

theorem lexLe_total (a b : List Char) : lexLe a b = true ∨ lexLe b a = true := by
  induction a generalizing b with
  | nil => left; rfl
  | cons x xs ih =>
    cases b with
    | nil => right; rfl
    | cons y ys =>
      by_cases h1 : x.toNat < y.toNat
      · left; simp [lexLe, h1]
      · by_cases h2 : y.toNat < x.toNat
        · right; simp [lexLe, h2]
        · rcases ih ys with h | h
          · left; simp [lexLe, h1, h2, h]
          · right; simp [lexLe, h1, h2, h]

theorem char_toNat_inj {a b : Char} (h : a.toNat = b.toNat) : a = b :=
  Char.ext (UInt32.ext h)

theorem lexLe_antisymm {a b : List Char} (h1 : lexLe a b = true) (h2 : lexLe b a = true) :
    a = b := by
  induction a generalizing b with
  | nil =>
    cases b with
    | nil => rfl
    | cons y ys => simp [lexLe] at h2
  | cons x xs ih =>
    cases b with
    | nil => simp [lexLe] at h1
    | cons y ys =>
      by_cases hxy : x.toNat < y.toNat
      · have hyx : ¬ y.toNat < x.toNat := Nat.lt_asymm hxy
        simp [lexLe, hxy, hyx] at h2
      · by_cases hyx : y.toNat < x.toNat
        · simp [lexLe, hxy, hyx] at h1
        · have hx : x = y := char_toNat_inj (by omega)
          subst hx
          simp [lexLe, hxy, hyx] at h1 h2
          rw [ih h1 h2]

theorem lexLe_trans {a b c : List Char} (h1 : lexLe a b = true) (h2 : lexLe b c = true) :
    lexLe a c = true := by
  induction a generalizing b c with
  | nil => rfl
  | cons x xs ih =>
    cases b with
    | nil => simp [lexLe] at h1
    | cons y ys =>
      cases c with
      | nil => simp [lexLe] at h2
      | cons z zs =>
        simp only [lexLe] at h1 h2 ⊢
        by_cases hxy : x.toNat < y.toNat
        · by_cases hyz : y.toNat < z.toNat
          · have hxz : x.toNat < z.toNat := Nat.lt_trans hxy hyz
            simp [hxz]
          · by_cases hzy : z.toNat < y.toNat
            · simp [hyz, hzy] at h2
            · have hxz : x.toNat < z.toNat := by omega
              simp [hxz]
        · by_cases hyx : y.toNat < x.toNat
          · simp [hxy, hyx] at h1
          · simp [hxy, hyx] at h1
            by_cases hyz : y.toNat < z.toNat
            · have hxz : x.toNat < z.toNat := by omega
              simp [hxz]
            · by_cases hzy : z.toNat < y.toNat
              · simp [hyz, hzy] at h2
              · simp [hyz, hzy] at h2
                have hxz : ¬ x.toNat < z.toNat := by omega
                have hzx : ¬ z.toNat < x.toNat := by omega
                simp [hxz, hzx]
                exact ih h1 h2

theorem strLe_refl (a : String) : strLe a a = true := lexLe_refl _

theorem strLe_total (a b : String) : strLe a b = true ∨ strLe b a = true := lexLe_total _ _

theorem strLe_antisymm {a b : String} (h1 : strLe a b = true) (h2 : strLe b a = true) : a = b := by
  cases a; cases b
  exact congrArg String.mk (lexLe_antisymm h1 h2)

theorem strLe_trans {a b c : String} (h1 : strLe a b = true) (h2 : strLe b c = true) :
    strLe a c = true := lexLe_trans h1 h2

theorem insertSorted_perm (s : String) (l : List String) :
    List.Perm (insertSorted s l) (s :: l) := by
  induction l with
  | nil => exact List.Perm.refl _
  | cons x xs ih =>
    simp only [insertSorted]
    split
    · exact List.Perm.refl _
    · exact (ih.cons x).trans (List.Perm.swap s x xs)

theorem sortStrings_perm (l : List String) : List.Perm (sortStrings l) l := by
  induction l with
  | nil => exact List.Perm.refl _
  | cons x xs ih =>
    simp only [sortStrings, List.foldr] at ih ⊢
    exact (insertSorted_perm x _).trans (ih.cons x)

theorem insertSorted_sorted (s : String) (l : List String)
    (h : l.Sorted strLeP) : (insertSorted s l).Sorted strLeP := by
  induction l with
  | nil => simp [insertSorted, List.Sorted]
  | cons x xs ih =>
    simp only [insertSorted]
    split
    · rename_i hle
      refine List.sorted_cons.mpr ⟨?_, h⟩
      intro b hb
      rcases List.mem_cons.mp hb with rfl | hb
      · exact hle
      · exact strLe_trans hle ((List.sorted_cons.mp h).1 _ hb)
    · rename_i hnle
      have hx := List.sorted_cons.mp h
      refine List.sorted_cons.mpr ⟨?_, ih hx.2⟩
      intro b hb
      rcases List.mem_cons.mp ((insertSorted_perm s xs).mem_iff.mp hb) with rfl | hbxs
      · rcases strLe_total x b with h1 | h1
        · exact h1
        · exact absurd h1 (by simpa using hnle)
      · exact hx.1 _ hbxs

theorem sortStrings_sorted (l : List String) : (sortStrings l).Sorted strLeP := by
  induction l with
  | nil => simp [sortStrings, List.Sorted]
  | cons x xs ih => exact insertSorted_sorted x _ ih

theorem sortStrings_eq_of_perm {l₁ l₂ : List String} (h : List.Perm l₁ l₂) :
    sortStrings l₁ = sortStrings l₂ := by
  haveI : IsAntisymm String strLeP := ⟨fun _ _ h1 h2 => strLe_antisymm h1 h2⟩
  exact List.eq_of_perm_of_sorted
    ((sortStrings_perm l₁).trans (h.trans (sortStrings_perm l₂).symm))
    (sortStrings_sorted l₁) (sortStrings_sorted l₂)

theorem sortStrings_length (l : List String) : (sortStrings l).length = l.length :=
  (sortStrings_perm l).length_eq

theorem sortStrings_nil_iff {l : List String} : sortStrings l = [] ↔ l = [] := by
  constructor
  · intro h
    have := sortStrings_perm l
    rw [h] at this
    exact this.symm.eq_nil
  · intro h; subst h; rfl

theorem relaxAll_indeg (adj : List String) (indeg : String → Int) (queue : List String)
    (n : String) :
    (relaxAll adj indeg queue).1 n = indeg n - (adj.count n : Int) := by
  induction adj generalizing indeg queue with
  | nil => simp [relaxAll]
  | cons d ds ih =>
    simp only [relaxAll]
    rw [ih]
    by_cases h : n = d
    · subst h
      rw [if_pos rfl, List.count_cons_self]
      push_cast
      omega
    · rw [if_neg h, List.count_cons_of_ne h]

theorem relaxAll_queue_append (adj : List String) (indeg : String → Int) (queue : List String) :
    ∃ app, (relaxAll adj indeg queue).2 = queue ++ app ∧ ∀ x ∈ app, x ∈ adj := by
  induction adj generalizing indeg queue with
  | nil => exact ⟨[], by simp [relaxAll]⟩
  | cons d ds ih =>
    simp only [relaxAll]
    by_cases h : indeg d - 1 = 0
    · rw [if_pos h]
      obtain ⟨app, happ, hmem⟩ := ih _ (queue ++ [d])
      refine ⟨d :: app, ?_, ?_⟩
      · rw [happ, List.append_assoc]
        rfl
      · intro x hx
        rcases List.mem_cons.mp hx with rfl | hx
        · exact List.mem_cons_self _ _
        · exact List.mem_cons_of_mem _ (hmem x hx)
    · rw [if_neg h]
      obtain ⟨app, happ, hmem⟩ := ih _ queue
      exact ⟨app, happ, fun x hx => List.mem_cons_of_mem _ (hmem x hx)⟩

theorem relaxAll_queue_length (adj : List String) (indeg : String → Int) (queue : List String) :
    (relaxAll adj indeg queue).2.length ≤ queue.length + adj.length := by
  induction adj generalizing indeg queue with
  | nil => simp [relaxAll]
  | cons d ds ih =>
    simp only [relaxAll]
    by_cases h : indeg d - 1 = 0
    · rw [if_pos h]
      have := ih (fun n => if n = d then indeg n - 1 else indeg n) (queue ++ [d])
      simp only [List.length_append, List.length_cons, List.length_nil] at this ⊢
      omega
    · rw [if_neg h]
      have := ih (fun n => if n = d then indeg n - 1 else indeg n) queue
      simp only [List.length_cons] at this ⊢
      omega

theorem relaxAll_mem_queue (adj : List String) (indeg : String → Int) (queue : List String)
    (x : String) :
    x ∈ (relaxAll adj indeg queue).2 ↔
      x ∈ queue ∨ (1 ≤ indeg x ∧ indeg x ≤ (adj.count x : Int)) := by
  induction adj generalizing indeg queue with
  | nil =>
    simp only [relaxAll, List.count_nil, Nat.cast_zero]
    constructor
    · exact Or.inl
    · rintro (hq | ⟨h1, h2⟩)
      · exact hq
      · omega
  | cons d ds ih =>
    simp only [relaxAll]
    rw [ih]
    by_cases hx : x = d
    · subst hx
      rw [if_pos rfl, List.count_cons_self]
      have hnn : (0 : Int) ≤ (ds.count x : Int) := Int.ofNat_nonneg _
      by_cases h : indeg x - 1 = 0
      · rw [if_pos h]
        push_cast
        constructor
        · intro _
          right
          omega
        · intro _
          exact Or.inl (List.mem_append_right _ (List.mem_singleton_self x))
      · rw [if_neg h]
        push_cast
        constructor
        · rintro (hq | ⟨h1, h2⟩)
          · exact Or.inl hq
          · right; omega
        · rintro (hq | ⟨h1, h2⟩)
          · exact Or.inl hq
          · right; omega
    · rw [if_neg hx, List.count_cons_of_ne hx]
      by_cases h : indeg d - 1 = 0
      · rw [if_pos h]
        constructor
        · rintro (hq | hr)
          · rcases List.mem_append.mp hq with hq2 | hq2
            · exact Or.inl hq2
            · exact absurd (List.mem_singleton.mp hq2) hx
          · exact Or.inr hr
        · rintro (hq | hr)
          · exact Or.inl (List.mem_append_left _ hq)
          · exact Or.inr hr
      · rw [if_neg h]

theorem kahnLoopF_queue_perm {T : Type} (lookup : String → Option T)
    (adj : String → List String) (fuel : Nat) (indeg : String → Int)
    {q1 q2 : List String} (h : List.Perm q1 q2) (processed : List String) (result : List T) :
    kahnLoopF lookup adj fuel indeg q1 processed result =
      kahnLoopF lookup adj fuel indeg q2 processed result := by
  cases fuel with
  | zero => rfl
  | succ n =>
    simp only [kahnLoopF]
    rw [sortStrings_eq_of_perm h]

theorem kahnLoopF_structure {T : Type} (lookup : String → Option T)
    (adj : String → List String) :
    ∀ (fuel : Nat) (indeg : String → Int) (queue processed : List String) (result : List T),
    ∃ newly : List String,
      kahnLoopF lookup adj fuel indeg queue processed result =
        (result ++ newly.reverse.filterMap lookup, newly ++ processed) ∧
      newly.Nodup ∧ (∀ x ∈ newly, x ∉ processed) ∧
      (∀ x ∈ newly, x ∈ queue ∨ ∃ d, x ∈ adj d) := by
  intro fuel
  induction fuel with
  | zero =>
    intro indeg queue processed result
    exact ⟨[], by simp [kahnLoopF], List.nodup_nil, by simp, by simp⟩
  | succ n ih =>
    intro indeg queue processed result
    simp only [kahnLoopF]
    split
    · exact ⟨[], by simp, List.nodup_nil, by simp, by simp⟩
    · rename_i current rest hs
      have hcq : current ∈ queue := by
        have : current ∈ sortStrings queue := by rw [hs]; exact List.mem_cons_self _ _
        exact (sortStrings_perm queue).mem_iff.mp this
      have hrq : ∀ x ∈ rest, x ∈ queue := by
        intro x hx
        have : x ∈ sortStrings queue := by rw [hs]; exact List.mem_cons_of_mem _ hx
        exact (sortStrings_perm queue).mem_iff.mp this
      by_cases hp : current ∈ processed
      · rw [if_pos hp]
        obtain ⟨newly, heq, hnd, hnp, horig⟩ := ih indeg rest processed result
        refine ⟨newly, heq, hnd, hnp, ?_⟩
        intro x hx
        rcases horig x hx with hq | hd
        · exact Or.inl (hrq x hq)
        · exact Or.inr hd
      · rw [if_neg hp]
        obtain ⟨newly, heq, hnd, hnp, horig⟩ :=
          ih (relaxAll (adj current) indeg rest).1 (relaxAll (adj current) indeg rest).2
            (current :: processed)
            (match lookup current with
              | some it => result ++ [it]
              | none => result)
        refine ⟨newly ++ [current], ?_, ?_, ?_, ?_⟩
        · rw [heq, Prod.mk.injEq]
          constructor
          · rw [List.reverse_append, List.reverse_singleton]
            simp only [List.singleton_append, List.filterMap_cons]
            cases hl : lookup current with
            | none => simp [hl]
            | some it => simp [hl]
          · simp
        · rw [List.nodup_append]
          refine ⟨hnd, List.nodup_singleton _, ?_⟩
          intro x hx
          simp only [List.mem_singleton]
          intro hxc
          subst hxc
          exact (hnp x hx) (List.mem_cons_self _ _)
        · intro x hx
          rcases List.mem_append.mp hx with hx | hx
          · intro hc
            exact (hnp x hx) (List.mem_cons_of_mem _ hc)
          · rw [List.mem_singleton.mp hx]
            exact hp
        · intro x hx
          rcases List.mem_append.mp hx with hx | hx
          · rcases horig x hx with hq | hd
            · obtain ⟨app, happ, hmem⟩ := relaxAll_queue_append (adj current) indeg rest
              rw [happ] at hq
              rcases List.mem_append.mp hq with hq2 | hq2
              · exact Or.inl (hrq x hq2)
              · exact Or.inr ⟨current, hmem x hq2⟩
            · exact Or.inr hd
          · rw [List.mem_singleton.mp hx]
            exact Or.inl hcq

theorem filter_cons_notMem_length {keys processed : List String} {current : String}
    (hnd : keys.Nodup) (hck : current ∈ keys) (hcp : current ∉ processed) :
    (keys.filter (fun k => k ∉ (current :: processed))).length + 1 =
      (keys.filter (fun k => k ∉ processed)).length := by
  have hstep : keys.filter (fun k => decide (k ∉ (current :: processed))) =
      (keys.filter (fun k => decide (k ∉ processed))).filter (fun k => decide (k ≠ current)) := by
    rw [List.filter_filter]
    apply List.filter_congr
    intro x hx
    by_cases h1 : x = current <;> by_cases h2 : x ∈ processed <;>
      simp [List.mem_cons, h1, h2]
  have hmemf : current ∈ keys.filter (fun k => decide (k ∉ processed)) :=
    List.mem_filter.mpr ⟨hck, by simpa using hcp⟩
  have hndf : (keys.filter (fun k => decide (k ∉ processed))).Nodup := hnd.filter _
  have herase := hndf.erase_eq_filter current
  have hlen := List.length_erase_of_mem hmemf
  have hpos : 0 < (keys.filter (fun k => decide (k ∉ processed))).length :=
    List.length_pos.mpr (List.ne_nil_of_mem hmemf)
  have hconv : (fun k : String => decide (k ≠ current)) = (fun k : String => k != current) := by
    funext k
    by_cases h : k = current <;> simp [h]
  show (keys.filter (fun k => decide (k ∉ (current :: processed)))).length + 1 =
    (keys.filter (fun k => decide (k ∉ processed))).length
  rw [hstep, hconv, ← herase, hlen]
  omega

theorem kahnLoopF_fuel_succ {T : Type} (lookup : String → Option T)
    (adj : String → List String) (keys : List String) (E : Nat)
    (hnd : keys.Nodup) (hadj : ∀ d x, x ∈ adj d → x ∈ keys)
    (hE : ∀ k ∈ keys, (adj k).length ≤ E) :
    ∀ (n : Nat) (indeg : String → Int) (queue processed : List String) (result : List T),
    (∀ x ∈ queue, x ∈ keys) →
    kahnMeasure keys E processed queue ≤ n →
    kahnLoopF lookup adj (n + 1) indeg queue processed result =
      kahnLoopF lookup adj n indeg queue processed result := by
  intro n
  induction n with
  | zero =>
    intro indeg queue processed result hq hm
    have hq0 : queue = [] := by
      simp only [kahnMeasure] at hm
      have : queue.length = 0 := by omega
      exact List.length_eq_zero.mp this
    subst hq0
    simp [kahnLoopF, sortStrings]
  | succ n ih =>
    intro indeg queue processed result hq hm
    conv_lhs => rw [kahnLoopF]
    conv_rhs => rw [kahnLoopF]
    split
    · rfl
    · rename_i current rest hs
      have hcq : current ∈ queue := by
        have : current ∈ sortStrings queue := by rw [hs]; exact List.mem_cons_self _ _
        exact (sortStrings_perm queue).mem_iff.mp this
      have hck : current ∈ keys := hq _ hcq
      have hrq : ∀ x ∈ rest, x ∈ keys := by
        intro x hx
        have : x ∈ sortStrings queue := by rw [hs]; exact List.mem_cons_of_mem _ hx
        exact hq _ ((sortStrings_perm queue).mem_iff.mp this)
      have hlen : rest.length + 1 = queue.length := by
        have h2 := sortStrings_length queue
        rw [hs] at h2
        simp only [List.length_cons] at h2
        omega
      by_cases hp : current ∈ processed
      · rw [if_pos hp, if_pos hp]
        apply ih _ _ _ _ hrq
        simp only [kahnMeasure] at hm ⊢
        omega
      · rw [if_neg hp, if_neg hp]
        apply ih
        · intro x hx
          obtain ⟨app, happ, hmem⟩ := relaxAll_queue_append (adj current) indeg rest
          rw [happ] at hx
          rcases List.mem_append.mp hx with hx2 | hx2
          · exact hrq x hx2
          · exact hadj current x (hmem x hx2)
        · have hql : (relaxAll (adj current) indeg rest).2.length ≤
              rest.length + (adj current).length := relaxAll_queue_length _ _ _
          have hadjE : (adj current).length ≤ E := hE current hck
          have hfl := filter_cons_notMem_length hnd hck hp
          simp only [kahnMeasure] at hm ⊢
          have hmul : ((keys.filter (fun k => k ∉ (current :: processed))).length + 1) * (E + 1) =
              (keys.filter (fun k => k ∉ processed)).length * (E + 1) := by rw [hfl]
          rw [Nat.add_mul, Nat.one_mul] at hmul
          omega

theorem kahnLoopF_fuel_ge {T : Type} (lookup : String → Option T)
    (adj : String → List String) (keys : List String) (E : Nat)
    (hnd : keys.Nodup) (hadj : ∀ d x, x ∈ adj d → x ∈ keys)
    (hE : ∀ k ∈ keys, (adj k).length ≤ E)
    (indeg : String → Int) (queue processed : List String) (result : List T)
    (hq : ∀ x ∈ queue, x ∈ keys) :
    ∀ n, kahnMeasure keys E processed queue ≤ n →
    kahnLoopF lookup adj n indeg queue processed result =
      kahnLoopF lookup adj (kahnMeasure keys E processed queue) indeg queue processed result := by
  intro n hn
  induction n, hn using Nat.le_induction with
  | base => rfl
  | succ n hn ih =>
    rw [kahnLoopF_fuel_succ lookup adj keys E hnd hadj hE n indeg queue processed result hq hn]
    exact ih

theorem sum_int_nonneg_of_nonneg {l : List Int} (h : ∀ x ∈ l, 0 ≤ x) : 0 ≤ l.sum := by
  induction l with
  | nil => simp
  | cons x xs ih =>
    rw [List.sum_cons]
    have h1 := h x (List.mem_cons_self _ _)
    have h2 := ih (fun y hy => h y (List.mem_cons_of_mem _ hy))
    omega

theorem single_le_sum_int {l : List Int} (h : ∀ x ∈ l, 0 ≤ x) {x : Int} (hx : x ∈ l) :
    x ≤ l.sum := by
  induction l with
  | nil => cases hx
  | cons y ys ih =>
    rw [List.sum_cons]
    rcases List.mem_cons.mp hx with rfl | hx2
    · have := sum_int_nonneg_of_nonneg (fun z hz => h z (List.mem_cons_of_mem _ hz))
      omega
    · have h1 := h y (List.mem_cons_self _ _)
      have := ih (fun z hz => h z (List.mem_cons_of_mem _ hz)) hx2
      omega

theorem indegSpec_nonneg (keys : List String) (adj : String → List String)
    (processed : List String) (n : String) : 0 ≤ indegSpec keys adj processed n := by
  apply sum_int_nonneg_of_nonneg
  intro x hx
  rcases List.mem_map.mp hx with ⟨d, _, rfl⟩
  exact Int.ofNat_nonneg _

theorem count_le_indegSpec {keys : List String} (adj : String → List String)
    {processed : List String} {d0 : String} (hd : d0 ∈ keys) (hdp : d0 ∉ processed)
    (n : String) : ((adj d0).count n : Int) ≤ indegSpec keys adj processed n := by
  apply single_le_sum_int
  · intro x hx
    rcases List.mem_map.mp hx with ⟨d, _, rfl⟩
    exact Int.ofNat_nonneg _
  · exact List.mem_map.mpr ⟨d0, List.mem_filter.mpr ⟨hd, by simpa using hdp⟩, rfl⟩

theorem indegSpec_cons {keys : List String} (adj : String → List String)
    {processed : List String} {current : String}
    (hnd : keys.Nodup) (hck : current ∈ keys) (hcp : current ∉ processed) (n : String) :
    indegSpec keys adj processed n =
      ((adj current).count n : Int) + indegSpec keys adj (current :: processed) n := by
  have hstep : keys.filter (fun k => decide (k ∉ (current :: processed))) =
      (keys.filter (fun k => decide (k ∉ processed))).filter (fun k => decide (k ≠ current)) := by
    rw [List.filter_filter]
    apply List.filter_congr
    intro x hx
    by_cases h1 : x = current <;> by_cases h2 : x ∈ processed <;>
      simp [List.mem_cons, h1, h2]
  have hconv : (fun k : String => decide (k ≠ current)) = (fun k : String => k != current) := by
    funext k
    by_cases h : k = current <;> simp [h]
  have hmemf : current ∈ keys.filter (fun k => decide (k ∉ processed)) :=
    List.mem_filter.mpr ⟨hck, by simpa using hcp⟩
  have hndf : (keys.filter (fun k => decide (k ∉ processed))).Nodup := hnd.filter _
  have hperm : List.Perm (keys.filter (fun k => decide (k ∉ processed)))
      (current :: (keys.filter (fun k => decide (k ∉ processed))).erase current) :=
    List.perm_cons_erase hmemf
  have herase := hndf.erase_eq_filter current
  show ((keys.filter (fun k => decide (k ∉ processed))).map
      (fun d => ((adj d).count n : Int))).sum = _
  rw [(hperm.map (fun d => ((adj d).count n : Int))).sum_eq]
  rw [List.map_cons, List.sum_cons]
  congr 1
  show _ = indegSpec keys adj (current :: processed) n
  rw [indegSpec, hstep, hconv, ← herase]

theorem sum_int_eq_zero {l : List Int} (h : ∀ x ∈ l, x = 0) : l.sum = 0 := by
  induction l with
  | nil => rfl
  | cons x xs ih =>
    rw [List.sum_cons, h x (List.mem_cons_self _ _),
      ih (fun y hy => h y (List.mem_cons_of_mem _ hy))]
    rfl

theorem kahnInv_drained {keys : List String} {adj : String → List String}
    {indeg : String → Int} {processed : List String}
    (inv : KahnInv keys adj indeg [] processed) :
    ∀ k ∈ keys, k ∉ processed → ∃ d, d ∈ keys ∧ d ∉ processed ∧ k ∈ adj d := by
  intro k hk hkp
  by_contra hno
  push_neg at hno
  have hzero : indegSpec keys adj processed k = 0 := by
    apply sum_int_eq_zero
    intro x hx
    rcases List.mem_map.mp hx with ⟨d, hd, rfl⟩
    rcases List.mem_filter.mp hd with ⟨hdk, hdp⟩
    have hdp2 : d ∉ processed := by simpa using hdp
    have : k ∉ adj d := hno d hdk hdp2
    simp [List.count_eq_zero.mpr this]
  have : k ∈ ([] : List String) := inv.zeroQ k hk hkp ((inv.indEq k).trans hzero)
  cases this

theorem kahn_master {T : Type} (lookup : String → Option T)
    (adj : String → List String) (keys : List String) (E : Nat)
    (hnd : keys.Nodup) (hadj : ∀ d x, x ∈ adj d → x ∈ keys)
    (hE : ∀ k ∈ keys, (adj k).length ≤ E) :
    ∀ (n : Nat) (indeg : String → Int) (queue processed : List String) (result : List T),
    KahnInv keys adj indeg queue processed →
    kahnMeasure keys E processed queue ≤ n →
    (∀ l1 p l2, (kahnLoopF lookup adj n indeg queue processed result).2 = l1 ++ p :: l2 →
        ∀ d ∈ keys, p ∈ adj d → d ∈ l2) ∧
    (∀ k ∈ keys, k ∉ (kahnLoopF lookup adj n indeg queue processed result).2 →
        ∃ d, d ∈ keys ∧ d ∉ (kahnLoopF lookup adj n indeg queue processed result).2 ∧
          k ∈ adj d) := by
  intro n
  induction n with
  | zero =>
    intro indeg queue processed result inv hm
    have hq0 : queue = [] := by
      simp only [kahnMeasure] at hm
      have : queue.length = 0 := by omega
      exact List.length_eq_zero.mp this
    subst hq0
    constructor
    · intro l1 p l2 hsplit d hd hedge
      exact inv.edgeResp l1 p l2 hsplit d hd hedge
    · intro k hk hkp
      exact kahnInv_drained inv k hk hkp
  | succ n ih =>
    intro indeg queue processed result inv hm
    simp only [kahnLoopF]
    split
    · rename_i hs
      have hq0 : queue = [] := sortStrings_nil_iff.mp hs
      subst hq0
      constructor
      · intro l1 p l2 hsplit d hd hedge
        exact inv.edgeResp l1 p l2 hsplit d hd hedge
      · intro k hk hkp
        exact kahnInv_drained inv k hk hkp
    · rename_i current rest hs
      have hcq : current ∈ queue := by
        have : current ∈ sortStrings queue := by rw [hs]; exact List.mem_cons_self _ _
        exact (sortStrings_perm queue).mem_iff.mp this
      have hck : current ∈ keys := inv.qKeys current hcq
      have hrq : ∀ x ∈ rest, x ∈ queue := by
        intro x hx
        have : x ∈ sortStrings queue := by rw [hs]; exact List.mem_cons_of_mem _ hx
        exact (sortStrings_perm queue).mem_iff.mp this
      have hmemrest : ∀ k, k ∈ queue → k ≠ current → k ∈ rest := by
        intro k hkq hkc
        have : k ∈ sortStrings queue := (sortStrings_perm queue).mem_iff.mpr hkq
        rw [hs] at this
        rcases List.mem_cons.mp this with rfl | h2
        · exact absurd rfl hkc
        · exact h2
      have hlen : rest.length + 1 = queue.length := by
        have h2 := sortStrings_length queue
        rw [hs] at h2
        simp only [List.length_cons] at h2
        omega
      by_cases hp : current ∈ processed
      · rw [if_pos hp]
        apply ih indeg rest processed result
        · exact ⟨inv.prNodup, inv.prKeys, fun x hx => inv.qKeys x (hrq x hx),
            inv.indEq, fun x hx => inv.qZero x (hrq x hx),
            fun k hk hkp hk0 =>
              hmemrest k (inv.zeroQ k hk hkp hk0) (fun hh => hkp (hh ▸ hp)),
            inv.edgeResp⟩
        · simp only [kahnMeasure] at hm ⊢
          omega
      · rw [if_neg hp]
        have hc0 : indeg current = 0 := inv.qZero current hcq
        have hspec0 : indegSpec keys adj processed current = 0 :=
          (inv.indEq current).symm.trans hc0
        have hdep : ∀ d ∈ keys, current ∈ adj d → d ∈ processed := by
          intro d hd hedge
          by_contra hdp
          have h1 : (adj d).count current ≠ 0 := by
            intro hh
            exact (List.count_eq_zero.mp hh) hedge
          have h2 := count_le_indegSpec adj hd hdp current
          rw [hspec0] at h2
          omega
        refine ih _ _ _ _ ⟨?_, ?_, ?_, ?_, ?_, ?_, ?_⟩ ?_
        · exact List.nodup_cons.mpr ⟨hp, inv.prNodup⟩
        · intro p hp2
          rcases List.mem_cons.mp hp2 with rfl | hp3
          · exact hck
          · exact inv.prKeys p hp3
        · intro x hx
          obtain ⟨app, happ, hmem⟩ := relaxAll_queue_append (adj current) indeg rest
          rw [happ] at hx
          rcases List.mem_append.mp hx with hx2 | hx2
          · exact inv.qKeys x (hrq x hx2)
          · exact hadj current x (hmem x hx2)
        · intro m
          rw [relaxAll_indeg, inv.indEq m, indegSpec_cons adj hnd hck hp m]
          omega
        · intro x hx
          rcases (relaxAll_mem_queue _ _ _ x).mp hx with hxr | ⟨h1, h2⟩
          · have hx0 : indeg x = 0 := inv.qZero x (hrq x hxr)
            have hcle := count_le_indegSpec adj hck hp x
            rw [← inv.indEq x, hx0] at hcle
            have hnn : (0 : Int) ≤ ((adj current).count x : Int) := Int.ofNat_nonneg _
            rw [relaxAll_indeg]
            omega
          · have hcle := count_le_indegSpec adj hck hp x
            rw [← inv.indEq x] at hcle
            rw [relaxAll_indeg]
            omega
        · intro k hk hkp2 hk0
          have hkc : k ≠ current := by
            intro hh
            exact hkp2 (hh ▸ List.mem_cons_self _ _)
          have hkpr : k ∉ processed := fun hh => hkp2 (List.mem_cons_of_mem _ hh)
          rw [relaxAll_indeg] at hk0
          by_cases hcnt : (adj current).count k = 0
          · have hik : indeg k = 0 := by
              rw [hcnt] at hk0
              simpa using hk0
            have hkq : k ∈ queue := inv.zeroQ k hk hkpr hik
            exact (relaxAll_mem_queue _ _ _ k).mpr (Or.inl (hmemrest k hkq hkc))
          · refine (relaxAll_mem_queue _ _ _ k).mpr (Or.inr ⟨?_, ?_⟩)
            · omega
            · omega
        · intro l1 p l2 hsplit d hd hedge
          cases l1 with
          | nil =>
            simp only [List.nil_append] at hsplit
            injection hsplit with h1 h2
            subst h1
            rw [← h2]
            exact hdep d hd hedge
          | cons a as =>
            simp only [List.cons_append] at hsplit
            injection hsplit with h1 h2
            exact inv.edgeResp as p l2 h2 d hd hedge
        · have hql : (relaxAll (adj current) indeg rest).2.length ≤
              rest.length + (adj current).length := relaxAll_queue_length _ _ _
          have hadjE : (adj current).length ≤ E := hE current hck
          have hfl := filter_cons_notMem_length hnd hck hp
          simp only [kahnMeasure] at hm ⊢
          have hmul : ((keys.filter (fun k => k ∉ (current :: processed))).length + 1) * (E + 1) =
              (keys.filter (fun k => k ∉ processed)).length * (E + 1) := by rw [hfl]
          rw [Nat.add_mul, Nat.one_mul] at hmul
          omega

theorem typeKeys_nodup {T : Type} (getName : T → String) (items : List T) :
    (typeKeys getName items).Nodup := List.nodup_dedup _

theorem typeKeys_ne_empty {T : Type} (getName : T → String) (items : List T) :
    ∀ n ∈ typeKeys getName items, n ≠ "" := by
  intro n hn
  have := List.mem_dedup.mp hn
  exact of_decide_eq_true (List.mem_filter.mp this).2

theorem mem_adjOf {T : Type} (getName : T → String) (extract : T → List String)
    (items : List T) (d x : String) :
    x ∈ adjOf getName extract items d ↔
      d ∈ typeKeys getName items ∧ x ∈ typeKeys getName items ∧
        d ∈ extractAt getName extract items x := by
  unfold adjOf
  by_cases hd : d ∈ typeKeys getName items
  · rw [if_pos hd]
    simp only [List.mem_flatMap, List.mem_replicate]
    constructor
    · rintro ⟨m, hm, hcnt, rfl⟩
      refine ⟨hd, hm, ?_⟩
      by_contra hc
      exact hcnt (List.count_eq_zero.mpr hc)
    · rintro ⟨_, hx, hdx⟩
      refine ⟨x, hx, ?_, rfl⟩
      intro hc
      exact (List.count_eq_zero.mp hc) hdx
  · rw [if_neg hd]
    simp only [List.not_mem_nil, false_iff]
    intro hc
    exact hd hc.1

theorem adjOf_subset_keys {T : Type} (getName : T → String) (extract : T → List String)
    (items : List T) : ∀ d x, x ∈ adjOf getName extract items d → x ∈ typeKeys getName items :=
  fun d x h => ((mem_adjOf getName extract items d x).mp h).2.1

theorem single_le_sum_nat {l : List Nat} {x : Nat} (hx : x ∈ l) : x ≤ l.sum := by
  induction l with
  | nil => cases hx
  | cons y ys ih =>
    rw [List.sum_cons]
    rcases List.mem_cons.mp hx with rfl | hx2
    · omega
    · have := ih hx2
      omega

theorem adjOf_length_le_edgeTotal {T : Type} (getName : T → String) (extract : T → List String)
    (items : List T) : ∀ k ∈ typeKeys getName items,
      (adjOf getName extract items k).length ≤ edgeTotal getName extract items := by
  intro k hk
  exact single_le_sum_nat (List.mem_map.mpr ⟨k, hk, rfl⟩)

theorem count_flatMap_strings (f : String → List String) (l : List String) (n : String) :
    (l.flatMap f).count n = (l.map (fun a => (f a).count n)).sum := by
  induction l with
  | nil => rfl
  | cons x xs ih =>
    rw [List.flatMap_cons, List.count_append, List.map_cons, List.sum_cons, ih]

theorem sum_map_ite_nodup {l : List String} (hnd : l.Nodup) (f : String → Nat) (n : String) :
    (l.map (fun m => if m = n then f m else 0)).sum = if n ∈ l then f n else 0 := by
  induction l with
  | nil => simp
  | cons x xs ih =>
    rcases List.nodup_cons.mp hnd with ⟨hxnot, hnd2⟩
    rw [List.map_cons, List.sum_cons, ih hnd2]
    by_cases hx : x = n
    · subst hx
      rw [if_pos rfl, if_pos (List.mem_cons_self _ _), if_neg hxnot]
      omega
    · rw [if_neg hx]
      by_cases hn : n ∈ xs
      · rw [if_pos hn, if_pos (List.mem_cons_of_mem _ hn)]
        omega
      · rw [if_neg hn, if_neg (fun hc => by
          rcases List.mem_cons.mp hc with h1 | h1
          · exact hx h1.symm
          · exact hn h1)]

theorem count_adjOf {T : Type} (getName : T → String) (extract : T → List String)
    (items : List T) {d : String} (hd : d ∈ typeKeys getName items) (n : String) :
    (adjOf getName extract items d).count n =
      if n ∈ typeKeys getName items then (extractAt getName extract items n).count d
      else 0 := by
  unfold adjOf
  rw [if_pos hd, count_flatMap_strings]
  have hmap : (typeKeys getName items).map
      (fun a => (List.replicate ((extractAt getName extract items a).count d) a).count n) =
      (typeKeys getName items).map
      (fun a => if a = n then (extractAt getName extract items a).count d else 0) := by
    apply List.map_congr_left
    intro a _
    rw [List.count_replicate]
    by_cases h : a = n
    · subst h
      simp
    · rw [if_neg h, if_neg (fun hc => h (by simpa using hc.symm))]
  rw [hmap, sum_map_ite_nodup (typeKeys_nodup getName items)]

theorem sum_map_add_nat (l : List String) (f g : String → Nat) :
    (l.map (fun d => f d + g d)).sum = (l.map f).sum + (l.map g).sum := by
  induction l with
  | nil => rfl
  | cons x xs ih =>
    simp only [List.map_cons, List.sum_cons, ih]
    omega

theorem sum_count_filter {ds : List String} (hnd : ds.Nodup) (xs : List String) :
    (ds.map (fun d => xs.count d)).sum = (xs.filter (fun x => x ∈ ds)).length := by
  induction xs with
  | nil =>
    rw [List.filter_nil, List.length_nil]
    apply List.sum_eq_zero
    intro x hx
    rcases List.mem_map.mp hx with ⟨d, _, rfl⟩
    exact List.count_nil d
  | cons x xs ih =>
    have hcnt : (ds.map (fun d => (x :: xs).count d)).sum =
        (ds.map (fun d => xs.count d + if d = x then 1 else 0)).sum := by
      congr 1
      apply List.map_congr_left
      intro d _
      rw [List.count_cons]
      by_cases h : d = x
      · subst h
        simp
      · have h2 : ¬ x = d := fun hh => h hh.symm
        simp [h, h2]
    rw [hcnt, sum_map_add_nat, ih]
    have hite : (ds.map (fun d => if d = x then 1 else 0)).sum = if x ∈ ds then 1 else 0 := by
      have := sum_map_ite_nodup hnd (fun _ => 1) x
      simpa using this
    rw [hite, List.filter_cons]
    by_cases hx : x ∈ ds <;> simp [hx]

theorem sum_map_cast_int (l : List String) (f : String → Nat) :
    (l.map (fun d => ((f d : Nat) : Int))).sum = (((l.map f).sum : Nat) : Int) := by
  induction l with
  | nil => rfl
  | cons x xs ih =>
    simp only [List.map_cons, List.sum_cons, ih]
    push_cast
    ring

theorem kahnInv_init {T : Type} (getName : T → String) (extract : T → List String)
    (items : List T) :
    KahnInv (typeKeys getName items) (adjOf getName extract items)
      (indeg0 getName extract items) (initQueue getName extract items) [] := by
  have hfilt : (typeKeys getName items).filter (fun k => k ∉ ([] : List String)) =
      typeKeys getName items := by
    apply List.filter_eq_self.mpr
    intro x _
    simp
  refine ⟨List.nodup_nil, by simp, ?_, ?_, ?_, ?_, ?_⟩
  · intro x hx
    exact (List.mem_filter.mp hx).1
  · intro n
    show indeg0 getName extract items n = indegSpec _ _ _ n
    rw [indegSpec, hfilt]
    by_cases hn : n ∈ typeKeys getName items
    · have hmap : (typeKeys getName items).map
          (fun d => ((adjOf getName extract items d).count n : Int)) =
          (typeKeys getName items).map
          (fun d => (((extractAt getName extract items n).count d : Nat) : Int)) := by
        apply List.map_congr_left
        intro d hd
        rw [count_adjOf getName extract items hd n, if_pos hn]
      rw [hmap, sum_map_cast_int, sum_count_filter (typeKeys_nodup getName items)]
      rw [indeg0, if_pos hn]
    · rw [indeg0, if_neg hn]
      symm
      apply sum_int_eq_zero
      intro x hx
      rcases List.mem_map.mp hx with ⟨d, hd, rfl⟩
      have : n ∉ adjOf getName extract items d := by
        intro hc
        exact hn ((mem_adjOf getName extract items d n).mp hc).2.1
      simp [List.count_eq_zero.mpr this]
  · intro x hx
    have := (List.mem_filter.mp hx).2
    exact of_decide_eq_true this
  · intro k hk _ hk0
    exact List.mem_filter.mpr ⟨hk, by simpa using hk0⟩
  · intro l1 p l2 hsplit
    exact absurd hsplit (by cases l1 <;> simp)

theorem filter_notMem_nil (keys : List String) :
    keys.filter (fun k => k ∉ ([] : List String)) = keys := by
  apply List.filter_eq_self.mpr
  intro x _
  simp

theorem kahnMeasure_init {T : Type} (getName : T → String) (extract : T → List String)
    (items : List T) :
    kahnMeasure (typeKeys getName items) (edgeTotal getName extract items) []
      (initQueue getName extract items) = kahnFuel getName extract items := by
  rw [kahnMeasure, kahnFuel, filter_notMem_nil]

theorem kahnFinal_facts {T : Type} (getName : T → String) (extract : T → List String)
    (items : List T) :
    (kahnFinal getName extract items).1 =
      ((kahnFinal getName extract items).2).reverse.filterMap (lookupItem getName items) ∧
    (kahnFinal getName extract items).2.Nodup ∧
    (∀ p ∈ (kahnFinal getName extract items).2, p ∈ typeKeys getName items) := by
  obtain ⟨newly, heq, hnd, _, horig⟩ :=
    kahnLoopF_structure (lookupItem getName items) (adjOf getName extract items)
      (kahnFuel getName extract items) (indeg0 getName extract items)
      (initQueue getName extract items) [] []
  have h1 : kahnFinal getName extract items =
      (newly.reverse.filterMap (lookupItem getName items), newly) := by
    show kahnLoopF _ _ _ _ _ _ _ = _
    rw [heq]
    simp
  rw [h1]
  refine ⟨rfl, hnd, ?_⟩
  intro p hp
  rcases horig p hp with hq | ⟨d, hd⟩
  · exact (List.mem_filter.mp hq).1
  · exact adjOf_subset_keys getName extract items d p hd

theorem kahnFinal_edgeResp {T : Type} (getName : T → String) (extract : T → List String)
    (items : List T) :
    ∀ l1 p l2, (kahnFinal getName extract items).2 = l1 ++ p :: l2 →
      ∀ d ∈ typeKeys getName items, p ∈ adjOf getName extract items d → d ∈ l2 := by
  have := kahn_master (lookupItem getName items) (adjOf getName extract items)
    (typeKeys getName items) (edgeTotal getName extract items)
    (typeKeys_nodup getName items) (adjOf_subset_keys getName extract items)
    (adjOf_length_le_edgeTotal getName extract items)
    (kahnFuel getName extract items) (indeg0 getName extract items)
    (initQueue getName extract items) [] []
    (kahnInv_init getName extract items)
    (le_of_eq (kahnMeasure_init getName extract items))
  exact this.1

theorem kahnFinal_drain {T : Type} (getName : T → String) (extract : T → List String)
    (items : List T) :
    ∀ k ∈ typeKeys getName items, k ∉ (kahnFinal getName extract items).2 →
      ∃ d, d ∈ typeKeys getName items ∧ d ∉ (kahnFinal getName extract items).2 ∧
        k ∈ adjOf getName extract items d := by
  have := kahn_master (lookupItem getName items) (adjOf getName extract items)
    (typeKeys getName items) (edgeTotal getName extract items)
    (typeKeys_nodup getName items) (adjOf_subset_keys getName extract items)
    (adjOf_length_le_edgeTotal getName extract items)
    (kahnFuel getName extract items) (indeg0 getName extract items)
    (initQueue getName extract items) [] []
    (kahnInv_init getName extract items)
    (le_of_eq (kahnMeasure_init getName extract items))
  exact this.2

theorem kahnFinal_complete {T : Type} (getName : T → String) (extract : T → List String)
    (items : List T)
    (hrank : ∃ rank : String → Nat, ∀ d ∈ typeKeys getName items,
      ∀ x ∈ adjOf getName extract items d, rank d < rank x) :
    ∀ k ∈ typeKeys getName items, k ∈ (kahnFinal getName extract items).2 := by
  obtain ⟨rank, hr⟩ := hrank
  have main : ∀ r k, k ∈ typeKeys getName items → rank k < r →
      k ∈ (kahnFinal getName extract items).2 := by
    intro r
    induction r with
    | zero => intro k _ h; omega
    | succ r ihr =>
      intro k hk hlt
      by_contra hkp
      obtain ⟨d, hd, hdp, hedge⟩ := kahnFinal_drain getName extract items k hk hkp
      have h1 : rank d < rank k := hr d hd k hedge
      exact hdp (ihr d hd (by omega))
  intro k hk
  exact main (rank k + 1) k hk (by omega)

theorem lookupItem_name {T : Type} (getName : T → String) (items : List T) (n : String)
    (it : T) (h : lookupItem getName items n = some it) : getName it = n ∧ it ∈ items := by
  rw [lookupItem] at h
  by_cases hn : n = ""
  · rw [if_pos hn] at h
    cases h
  · rw [if_neg hn] at h
    have hmem := List.mem_of_mem_getLast? h
    rcases List.mem_filter.mp hmem with ⟨h1, h2⟩
    exact ⟨of_decide_eq_true h2, h1⟩

theorem mem_typeKeys {T : Type} (getName : T → String) (items : List T) (n : String) :
    n ∈ typeKeys getName items ↔ n ≠ "" ∧ ∃ it ∈ items, getName it = n := by
  rw [typeKeys, List.mem_dedup, List.mem_filter]
  simp only [List.mem_map, decide_not]
  constructor
  · rintro ⟨⟨it, hit, rfl⟩, h2⟩
    exact ⟨by simpa using h2, it, hit, rfl⟩
  · rintro ⟨h1, it, hit, rfl⟩
    exact ⟨⟨it, hit, rfl⟩, by simpa using h1⟩

theorem filter_name_singleton {T : Type} (getName : T → String) :
    ∀ (items : List T) (a : T),
      ((items.map getName).filter (fun m => m ≠ "")).Nodup → a ∈ items → getName a ≠ "" →
      items.filter (fun it => getName it = getName a) = [a] := by
  intro items
  induction items with
  | nil => intro a _ ha; cases ha
  | cons x xs ih =>
    intro a hnd ha hane
    have hmapcons : ((x :: xs).map getName).filter (fun m => m ≠ "") =
        if getName x ≠ "" then
          getName x :: ((xs.map getName).filter (fun m => m ≠ ""))
        else (xs.map getName).filter (fun m => m ≠ "") := by
      rw [List.map_cons, List.filter_cons]
      by_cases hxe : getName x = ""
      · rw [if_neg (by simpa using hxe), if_neg (by simpa using hxe)]
      · rw [if_pos (by simpa using hxe), if_pos (by simpa using hxe)]
    rcases List.mem_cons.mp ha with rfl | ha2
    · rw [List.filter_cons, if_pos (by simp)]
      have hrest : xs.filter (fun it => getName it = getName a) = [] := by
        rw [List.filter_eq_nil_iff]
        intro y hy hc
        have hyname : getName y = getName a := of_decide_eq_true hc
        rw [hmapcons, if_pos (by simpa using hane)] at hnd
        rcases List.nodup_cons.mp hnd with ⟨hnotin, _⟩
        exact hnotin (List.mem_filter.mpr
          ⟨List.mem_map.mpr ⟨y, hy, hyname⟩, by simpa using hane⟩)
      rw [hrest]
    · have hxa : getName x ≠ getName a := by
        intro hh
        have hxe : getName x ≠ "" := by rw [hh]; exact hane
        rw [hmapcons, if_pos (by simpa using hxe)] at hnd
        rcases List.nodup_cons.mp hnd with ⟨hnotin, _⟩
        exact hnotin (List.mem_filter.mpr
          ⟨List.mem_map.mpr ⟨a, ha2, hh.symm⟩, by simpa using hxe⟩)
      rw [List.filter_cons, if_neg (by simpa using hxa)]
      apply ih a _ ha2 hane
      by_cases hxe : getName x = ""
      · rw [hmapcons, if_neg (by simpa using hxe)] at hnd
        exact hnd
      · rw [hmapcons, if_pos (by simpa using hxe)] at hnd
        exact (List.nodup_cons.mp hnd).2

theorem lookupItem_self {T : Type} (getName : T → String) (items : List T) (a : T)
    (hnd : ((items.map getName).filter (fun m => m ≠ "")).Nodup) (ha : a ∈ items)
    (hane : getName a ≠ "") :
    lookupItem getName items (getName a) = some a := by
  rw [lookupItem, if_neg hane, filter_name_singleton getName items a hnd ha hane]
  rfl

theorem count_filter_of_false {T : Type} [DecidableEq T] {p : T → Bool} {x : T}
    (l : List T) (hp : ¬ p x = true) : (l.filter p).count x = 0 := by
  rw [List.count_eq_zero]
  intro hc
  exact hp (List.mem_filter.mp hc).2

theorem count_filterMap_lookup {T : Type} [DecidableEq T] (getName : T → String)
    (items : List T) (x : T) :
    ∀ ns : List String, ns.Nodup →
    (ns.filterMap (lookupItem getName items)).count x =
      if getName x ∈ ns ∧ lookupItem getName items (getName x) = some x then 1 else 0 := by
  intro ns
  induction ns with
  | nil =>
    intro _
    simp
  | cons n ns ih =>
    intro hnd
    rcases List.nodup_cons.mp hnd with ⟨hnn, hnd2⟩
    cases hl : lookupItem getName items n with
    | none =>
      rw [List.filterMap_cons_none hl, ih hnd2]
      by_cases hgx : getName x = n
      · rw [if_neg, if_neg]
        · rintro ⟨_, hlk⟩
          rw [hgx, hl] at hlk
          cases hlk
        · rintro ⟨hm, hlk⟩
          rw [hgx, hl] at hlk
          cases hlk
      · by_cases hm : getName x ∈ ns
        · by_cases hlk : lookupItem getName items (getName x) = some x
          · rw [if_pos ⟨hm, hlk⟩, if_pos ⟨List.mem_cons_of_mem _ hm, hlk⟩]
          · rw [if_neg (fun hc => hlk hc.2), if_neg (fun hc => hlk hc.2)]
        · rw [if_neg, if_neg]
          · rintro ⟨hmc, _⟩
            rcases List.mem_cons.mp hmc with h1 | h1
            · exact hgx h1
            · exact hm h1
          · rintro ⟨hmc, _⟩
            exact hm hmc
    | some it =>
      have hit := lookupItem_name getName items n it hl
      rw [List.filterMap_cons_some hl]
      by_cases hxit : it = x
      · subst hxit
        have hgn : getName it = n := hit.1
        have hnotns : getName it ∉ ns := by rw [hgn]; exact hnn
        have hcond : getName it ∈ n :: ns ∧
            lookupItem getName items (getName it) = some it :=
          ⟨by rw [hgn]; exact List.mem_cons_self _ _, by rw [hgn]; exact hl⟩
        rw [if_pos hcond, List.count_cons_self, ih hnd2, if_neg (fun hc => hnotns hc.1)]
      · have hcc : List.count x (it :: List.filterMap (lookupItem getName items) ns) =
            List.count x (List.filterMap (lookupItem getName items) ns) := by
          rw [List.count_cons]
          simp [hxit]
        rw [hcc, ih hnd2]
        by_cases hgx : getName x = n
        · rw [if_neg, if_neg]
          · rintro ⟨_, hlk⟩
            rw [hgx, hl] at hlk
            exact hxit (by injection hlk)
          · rintro ⟨hmc, hlk⟩
            rw [hgx] at hmc
            exact hnn hmc
        · by_cases hm : getName x ∈ ns
          · by_cases hlk : lookupItem getName items (getName x) = some x
            · rw [if_pos ⟨hm, hlk⟩, if_pos ⟨List.mem_cons_of_mem _ hm, hlk⟩]
            · rw [if_neg (fun hc => hlk hc.2), if_neg (fun hc => hlk hc.2)]
          · rw [if_neg, if_neg]
            · rintro ⟨hmc, _⟩
              rcases List.mem_cons.mp hmc with h1 | h1
              · exact hgx h1
              · exact hm h1
            · rintro ⟨hmc, _⟩
              exact hm hmc

theorem resolve_perm {T : Type} [DecidableEq T] (getName : T → String)
    (extract : T → List String) (items : List T)
    (hnd : ((items.map getName).filter (fun m => m ≠ "")).Nodup) :
    List.Perm (resolveDependencies getName extract items) items := by
  rw [List.perm_iff_count]
  intro x
  obtain ⟨hres, hprnd, hprkeys⟩ := kahnFinal_facts getName extract items
  show ((kahnFinal getName extract items).1 ++
    items.filter (fun it => getName it ∉ (kahnFinal getName extract items).2)).count x
    = items.count x
  rw [List.count_append, hres,
    count_filterMap_lookup getName items x _ (List.nodup_reverse.mpr hprnd)]
  by_cases hmem : getName x ∈ (kahnFinal getName extract items).2
  · have hx_keys := hprkeys _ hmem
    have hxne : getName x ≠ "" := typeKeys_ne_empty getName items _ hx_keys
    have hleft0 : (items.filter
        (fun it => getName it ∉ (kahnFinal getName extract items).2)).count x = 0 :=
      count_filter_of_false items (by simpa using hmem)
    rw [hleft0]
    by_cases hxitems : x ∈ items
    · have hlook := lookupItem_self getName items x hnd hxitems hxne
      rw [if_pos ⟨List.mem_reverse.mpr hmem, hlook⟩]
      have h2 : (items.filter (fun it => decide (getName it = getName x))).count x =
          items.count x := List.count_filter (by simp)
      have hf := filter_name_singleton getName items x hnd hxitems hxne
      rw [hf] at h2
      have hone : items.count x = 1 := by simpa using h2.symm
      omega
    · rw [if_neg]
      · have hz : items.count x = 0 := List.count_eq_zero.mpr hxitems
        omega
      · rintro ⟨_, hlk⟩
        exact hxitems (lookupItem_name getName items _ x hlk).2
  · rw [if_neg (fun hc => hmem (List.mem_reverse.mp hc.1))]
    have hsame : (items.filter
        (fun it => getName it ∉ (kahnFinal getName extract items).2)).count x
        = items.count x := List.count_filter (by simpa using hmem)
    omega

theorem acyclic_to_adj_rank {T : Type} (getName : T → String) (extract : T → List String)
    (items : List T)
    (hnd : ((items.map getName).filter (fun m => m ≠ "")).Nodup)
    (hacyc : AcyclicDeps getName extract items) :
    ∃ rank : String → Nat, ∀ d ∈ typeKeys getName items,
      ∀ x ∈ adjOf getName extract items d, rank d < rank x := by
  obtain ⟨rank, hr⟩ := hacyc
  refine ⟨rank, ?_⟩
  intro d hd x hx
  rcases (mem_adjOf getName extract items d x).mp hx with ⟨_, hxk, hdx⟩
  rcases (mem_typeKeys getName items x).mp hxk with ⟨hxne, b, hb, hbname⟩
  have hlook : lookupItem getName items x = some b := by
    rw [← hbname]
    exact lookupItem_self getName items b hnd hb (hbname ▸ hxne)
  have hext : extractAt getName extract items x = extract b := by
    rw [extractAt, hlook]
  rw [hext] at hdx
  rcases (mem_typeKeys getName items d).mp hd with ⟨hdne, a, ha, haname⟩
  have hrr := hr b hb a ha (by rw [haname]; exact hdx)
  rw [haname, hbname] at hrr
  exact hrr

/-- C1 (amended). When the input declarations have pairwise-distinct, non-empty
names and the dependency graph restricted to present names is acyclic (witnessed
by a rank function), ResolveDependencies returns an order in which, whenever
declaration B's extracted dependency set contains the name of declaration A and
A is present in the input, A appears no later than B in the output sequence. -/
theorem c1_topological_order {T : Type} (getName : T → String) (extract : T → List String)
    (items : List T)
    (hnodup : (items.map getName).Nodup)
    (hne : ∀ it ∈ items, getName it ≠ "")
    (hacyc : AcyclicDeps getName extract items)
    (a b : T) (ha : a ∈ items) (hb : b ∈ items) (hdep : getName a ∈ extract b) :
    ∃ i j, i ≤ j ∧ (resolveDependencies getName extract items).get? i = some a ∧
      (resolveDependencies getName extract items).get? j = some b := by
  have hfnd : ((items.map getName).filter (fun m => m ≠ "")).Nodup := hnodup.filter _
  have hkeys : ∀ it ∈ items, getName it ∈ typeKeys getName items := by
    intro it hit
    exact (mem_typeKeys getName items _).mpr ⟨hne it hit, it, hit, rfl⟩
  have hcomp := kahnFinal_complete getName extract items
    (acyclic_to_adj_rank getName extract items hfnd hacyc)
  have hleft : items.filter
      (fun it => getName it ∉ (kahnFinal getName extract items).2) = [] := by
    rw [List.filter_eq_nil_iff]
    intro it hit hcontra
    exact (of_decide_eq_true hcontra) (hcomp _ (hkeys it hit))
  obtain ⟨hres, hprnd, hprkeys⟩ := kahnFinal_facts getName extract items
  have hout : resolveDependencies getName extract items =
      ((kahnFinal getName extract items).2).reverse.filterMap (lookupItem getName items) := by
    show (kahnFinal getName extract items).1 ++ _ = _
    rw [hleft, hres, List.append_nil]
  have hnb := hkeys b hb
  have hna := hkeys a ha
  have hbpr : getName b ∈ (kahnFinal getName extract items).2 := hcomp _ hnb
  obtain ⟨l1, l2, hsplit⟩ := List.append_of_mem hbpr
  have hlookb : lookupItem getName items (getName b) = some b :=
    lookupItem_self getName items b hfnd hb (hne b hb)
  have hlooka : lookupItem getName items (getName a) = some a :=
    lookupItem_self getName items a hfnd ha (hne a ha)
  have hedge : getName b ∈ adjOf getName extract items (getName a) := by
    apply (mem_adjOf getName extract items _ _).mpr
    refine ⟨hna, hnb, ?_⟩
    rw [extractAt, hlookb]
    exact hdep
  have hna_l2 : getName a ∈ l2 :=
    kahnFinal_edgeResp getName extract items l1 (getName b) l2 hsplit (getName a) hna hedge
  have hrev : ((kahnFinal getName extract items).2).reverse =
      l2.reverse ++ getName b :: l1.reverse := by
    rw [hsplit]
    simp [List.reverse_append]
  have hout2 : resolveDependencies getName extract items =
      (l2.reverse.filterMap (lookupItem getName items)) ++
        b :: (l1.reverse.filterMap (lookupItem getName items)) := by
    rw [hout, hrev, List.filterMap_append, List.filterMap_cons_some hlookb]
  have hamem : a ∈ l2.reverse.filterMap (lookupItem getName items) :=
    List.mem_filterMap.mpr ⟨getName a, List.mem_reverse.mpr hna_l2, hlooka⟩
  obtain ⟨i, hi⟩ := List.get?_of_mem hamem
  have hilt : i < (l2.reverse.filterMap (lookupItem getName items)).length := by
    rcases List.get?_eq_some.mp hi with ⟨h, _⟩
    exact h
  refine ⟨i, (l2.reverse.filterMap (lookupItem getName items)).length, le_of_lt hilt, ?_, ?_⟩
  · rw [hout2, List.get?_append hilt]
    exact hi
  · rw [hout2, List.get?_append_right (le_refl _)]
    simp

theorem mem_of_mem_resolve {T : Type} (getName : T → String) (extract : T → List String)
    (items : List T) (x : T) (hx : x ∈ resolveDependencies getName extract items) :
    x ∈ items := by
  obtain ⟨hres, _, _⟩ := kahnFinal_facts getName extract items
  rcases List.mem_append.mp hx with h1 | h1
  · rw [hres] at h1
    rcases List.mem_filterMap.mp h1 with ⟨n, _, hlk⟩
    exact (lookupItem_name getName items n x hlk).2
  · exact (List.mem_filter.mp h1).1

theorem resolve_count_tail {T : Type} [DecidableEq T] (getName : T → String)
    (extract : T → List String) (items : List T) (x : T)
    (hx : getName x ∉ (kahnFinal getName extract items).2) :
    (resolveDependencies getName extract items).count x = items.count x := by
  obtain ⟨hres, _, _⟩ := kahnFinal_facts getName extract items
  show ((kahnFinal getName extract items).1 ++
    items.filter (fun it => getName it ∉ (kahnFinal getName extract items).2)).count x
    = items.count x
  rw [List.count_append]
  have h1 : (kahnFinal getName extract items).1.count x = 0 := by
    rw [List.count_eq_zero, hres]
    intro hc
    rcases List.mem_filterMap.mp hc with ⟨n, hn, hlk⟩
    have hgx := (lookupItem_name getName items n x hlk).1
    rw [← hgx] at hn
    exact hx (List.mem_reverse.mp hn)
  have h2 : (items.filter
      (fun it => getName it ∉ (kahnFinal getName extract items).2)).count x
      = items.count x := List.count_filter (by simpa using hx)
  omega

theorem resolve_fuel_stable {T : Type} (getName : T → String) (extract : T → List String)
    (items : List T) :
    ∀ n, kahnFuel getName extract items ≤ n →
      kahnLoopF (lookupItem getName items) (adjOf getName extract items) n
          (indeg0 getName extract items) (initQueue getName extract items) [] [] =
        kahnFinal getName extract items := by
  intro n hn
  have hq : ∀ x ∈ initQueue getName extract items, x ∈ typeKeys getName items := by
    intro x hx
    exact (List.mem_filter.mp hx).1
  have h1 := kahnLoopF_fuel_ge (lookupItem getName items) (adjOf getName extract items)
    (typeKeys getName items) (edgeTotal getName extract items)
    (typeKeys_nodup getName items) (adjOf_subset_keys getName extract items)
    (adjOf_length_le_edgeTotal getName extract items)
    (indeg0 getName extract items) (initQueue getName extract items) [] [] hq n
    (by rw [kahnMeasure_init]; exact hn)
  have h2 := kahnLoopF_fuel_ge (lookupItem getName items) (adjOf getName extract items)
    (typeKeys getName items) (edgeTotal getName extract items)
    (typeKeys_nodup getName items) (adjOf_subset_keys getName extract items)
    (adjOf_length_le_edgeTotal getName extract items)
    (indeg0 getName extract items) (initQueue getName extract items) [] [] hq
    (kahnFuel getName extract items) (le_of_eq (kahnMeasure_init getName extract items))
  rw [h1, ← h2]
  rfl

theorem sortStrings_head_min {queue : List String} {current : String} {rest : List String}
    (hs : sortStrings queue = current :: rest) :
    ∀ x ∈ queue, strLe current x = true := by
  intro x hx
  have hmem : x ∈ current :: rest := by
    rw [← hs]
    exact (sortStrings_perm queue).mem_iff.mpr hx
  rcases List.mem_cons.mp hmem with rfl | hr
  · exact strLe_refl x
  · have hsorted := sortStrings_sorted queue
    rw [hs] at hsorted
    exact (List.sorted_cons.mp hsorted).1 x hr

/-- C1 (counterexample). The claim as stated is false: with two declarations both
named X (the second overriding the first in the name map) and Y depending on X,
the dependency graph restricted to present names is acyclic, yet the first
X-declaration never appears in the output of ResolveDependencies at all, so it
does not appear no later than Y. -/
theorem c1_counterexample :
    AcyclicDeps Decl.name Decl.deps [declX0, declX1, declY] ∧
    declX0 ∈ [declX0, declX1, declY] ∧ declY ∈ [declX0, declX1, declY] ∧
    Decl.name declX0 ∈ Decl.deps declY ∧
    declX0 ∉ resolveDependencies Decl.name Decl.deps [declX0, declX1, declY] :=
  ⟨⟨fun n => if n = "X" then 0 else 1, by decide⟩, by decide, by decide, by decide, by decide⟩

/-- C1 witness: a concrete acyclic two-declaration input on which the amended
theorem applies, with Delta placed no later than Gamma which depends on it. -/
theorem c1_witness :
    ∃ i j, i ≤ j ∧
      (resolveDependencies Decl.name Decl.deps [declGamma, declDelta]).get? i =
        some declDelta ∧
      (resolveDependencies Decl.name Decl.deps [declGamma, declDelta]).get? j =
        some declGamma :=
  c1_topological_order Decl.name Decl.deps [declGamma, declDelta] (by decide) (by decide)
    ⟨fun n => if n = "Delta" then 0 else 1, by decide⟩ declDelta declGamma
    (by decide) (by decide) (by decide)

/-- C2. ResolveDependencies is deterministic: the Kahn loop's result is invariant
under any permutation of the ready queue, because each iteration sorts the
queue lexicographically and removes the head, which is the lexicographically
smallest element of the ready set (second conjunct); in particular for two
independent items named Alpha and Bravo, Alpha is emitted before Bravo even
when Bravo comes first in the input. -/
theorem c2_determinism :
    (∀ (T : Type) (lookup : String → Option T) (adj : String → List String) (fuel : Nat)
        (indeg : String → Int) (q1 q2 processed : List String) (result : List T),
      List.Perm q1 q2 →
      kahnLoopF lookup adj fuel indeg q1 processed result =
        kahnLoopF lookup adj fuel indeg q2 processed result) ∧
    (∀ (queue : List String) (current : String) (rest : List String),
      sortStrings queue = current :: rest → ∀ x ∈ queue, strLe current x = true) ∧
    resolveDependencies Decl.name Decl.deps [declBravo, declAlpha] = [declAlpha, declBravo] :=
  ⟨fun _ lookup adj fuel indeg _ _ processed result h =>
      kahnLoopF_queue_perm lookup adj fuel indeg h processed result,
    fun _ _ _ hs => sortStrings_head_min hs, by decide⟩

/-- C2 witness: the loop gives identical results on the two orderings of the
ready set containing Bravo and Alpha. -/
theorem c2_witness :
    List.Perm ["Bravo", "Alpha"] ["Alpha", "Bravo"] ∧
    kahnLoopF (fun _ => (none : Option Decl)) (fun _ => []) 5 (fun _ => 0)
        ["Bravo", "Alpha"] [] [] =
      kahnLoopF (fun _ => (none : Option Decl)) (fun _ => []) 5 (fun _ => 0)
        ["Alpha", "Bravo"] [] [] :=
  ⟨by decide,
    c2_determinism.1 Decl (fun _ => none) (fun _ => []) 5 (fun _ => 0)
      ["Bravo", "Alpha"] ["Alpha", "Bravo"] [] [] (by decide)⟩

/-- C3. When the graph contains a cycle, ResolveDependencies still terminates: the
loop's result is the same for every fuel bound of at least kahnFuel (first
conjunct, the loop variant), every item not emitted by the Kahn loop is
appended at the end of the result in its original input order (second
conjunct), and an item whose name is never processed occurs in the output
exactly as often as in the input - exactly once for a cyclic item given once
(third conjunct). -/
theorem c3_cycle_tolerance {T : Type} [DecidableEq T] (getName : T → String)
    (extract : T → List String) (items : List T) :
    (∀ n, kahnFuel getName extract items ≤ n →
      kahnLoopF (lookupItem getName items) (adjOf getName extract items) n
          (indeg0 getName extract items) (initQueue getName extract items) [] [] =
        kahnFinal getName extract items) ∧
    resolveDependencies getName extract items =
      (kahnFinal getName extract items).1 ++
        items.filter (fun it => getName it ∉ (kahnFinal getName extract items).2) ∧
    (∀ x : T, getName x ∉ (kahnFinal getName extract items).2 →
      (resolveDependencies getName extract items).count x = items.count x) :=
  ⟨resolve_fuel_stable getName extract items, rfl,
    fun x hx => resolve_count_tail getName extract items x hx⟩

/-- C3 witness: in the two-cycle A depends on B, B depends on A, neither name is
processed, each item appears exactly once, and the output is the input order. -/
theorem c3_witness :
    Decl.name declCycA ∉ (kahnFinal Decl.name Decl.deps [declCycA, declCycB]).2 ∧
    (resolveDependencies Decl.name Decl.deps [declCycA, declCycB]).count declCycA =
      ([declCycA, declCycB] : List Decl).count declCycA ∧
    resolveDependencies Decl.name Decl.deps [declCycA, declCycB] = [declCycA, declCycB] :=
  ⟨by decide,
    (c3_cycle_tolerance Decl.name Decl.deps [declCycA, declCycB]).2.2 declCycA (by decide),
    by decide⟩

/-- C4 (counterexample). The claim is false: the sorter never assigns Level. At
index 1 of the output the item Q still carries its input Level 0, not 1. -/
theorem c4_counterexample :
    (resolveDependencies Decl.name Decl.deps [declP, declQ]).get? 1 = some declQ ∧
    Decl.level declQ ≠ 1 := by
  refine ⟨?_, by decide⟩
  decide

/-- C4 (amended). ResolveDependencies returns input items verbatim: every element
of the output is an element of the input list, so Level keeps its input value
and is not populated with the output index (the printed level is the loop index
in PrintResults, not the stored field). -/
theorem c4_output_unchanged {T : Type} (getName : T → String) (extract : T → List String)
    (items : List T) (x : T) (hx : x ∈ resolveDependencies getName extract items) :
    x ∈ items :=
  mem_of_mem_resolve getName extract items x hx

/-- C4 witness: a concrete output element of ResolveDependencies is an input item. -/
theorem c4_witness :
    declP ∈ resolveDependencies Decl.name Decl.deps [declP, declQ] ∧
    declP ∈ [declP, declQ] :=
  ⟨by decide, c4_output_unchanged Decl.name Decl.deps [declP, declQ] declP (by decide)⟩

/-- C5 (counterexample). The claim is false for duplicate names: with two distinct
declarations both named X, the output contains only the later one, so the
output is shorter than the input and the first item does not occur. -/
theorem c5_counterexample :
    resolveDependencies Decl.name Decl.deps [declX0, declX1] = [declX1] ∧
    declX0 ≠ declX1 ∧
    (resolveDependencies Decl.name Decl.deps [declX0, declX1]).length ≠
      ([declX0, declX1] : List Decl).length := by
  refine ⟨?_, by decide, ?_⟩ <;> decide

/-- C5 (amended). When no two input items share a non-empty name, the sequence
returned by ResolveDependencies is a permutation of the input: it has the same
length and each input item occurs in it exactly once (duplicate non-empty
names instead collapse to the last occurrence). -/
theorem c5_exact_cover {T : Type} [DecidableEq T] (getName : T → String)
    (extract : T → List String) (items : List T)
    (hnd : ((items.map getName).filter (fun m => m ≠ "")).Nodup) :
    List.Perm (resolveDependencies getName extract items) items :=
  resolve_perm getName extract items hnd

/-- C5 witness: on a concrete two-item input with distinct names the output is a
permutation of the input. -/
theorem c5_witness :
    ((([declP, declQ] : List Decl).map Decl.name).filter (fun m => m ≠ "")).Nodup ∧
    List.Perm (resolveDependencies Decl.name Decl.deps [declP, declQ]) [declP, declQ] :=
  ⟨by decide, c5_exact_cover Decl.name Decl.deps [declP, declQ] (by decide)⟩

/-- C6. extractTypeDependencies, viewed as a set of names, yields exactly
\x7bUserService\x7d on "*[]map[string]UserService", the empty set on "int",
exactly \x7bReader\x7d on "pkg.Reader", and the empty set on the empty string. -/
theorem c6_extraction_cases :
    (∀ x, x ∈ extractTypeDependencies "*[]map[string]UserService" ↔ x = "UserService") ∧
    extractTypeDependencies "int" = [] ∧
    (∀ x, x ∈ extractTypeDependencies "pkg.Reader" ↔ x = "Reader") ∧
    extractTypeDependencies "" = [] := by
  have h1 : extractTypeDependencies "*[]map[string]UserService" = ["UserService"] := by decide
  have h3 : extractTypeDependencies "pkg.Reader" = ["Reader"] := by decide
  refine ⟨?_, by decide, ?_, by decide⟩
  · intro x
    rw [h1]
    simp
  · intro x
    rw [h3]
    simp

/-- C7. Zero-value synthesis: generateZeroValues maps "(int, error)" to "0, nil",
"string" to the empty-string literal, "*Widget" to "nil", and the non-builtin
unqualified "Widget" to the composite empty-value construction for Widget. -/
theorem c7_zero_values :
    generateZeroValues "(int, error)" = "0, nil" ∧
    generateZeroValues "string" = "\"\"" ∧
    generateZeroValues "*Widget" = "nil" ∧
    generateZeroValues "Widget" = "Widget\x7b\x7d" := by
  refine ⟨?_, ?_, ?_, ?_⟩ <;> decide

/-- C8 (counterexample). The claim is false: on the signature "Foo(" the
depth-tracking scan finds no parameter-list-closing parenthesis, yet
generateMethodImplementation still produces a non-empty method (with empty
parameter list and no returns) because the method name before the first
parenthesis is non-empty. -/
theorem c8_counterexample :
    parseMethodSignature "Foo(" = ("Foo", "", "") ∧
    findParamEnd (List.intercalate "(".data (List.splitOn '(' "Foo(".data).tail) 0 0 = none ∧
    generateMethodImplementation "Foo(" "NoOpX" 0 ≠ "" := by
  refine ⟨by decide, by decide, by decide⟩

/-- C8 (amended). generateMethodImplementation produces no generated method exactly
when the re-parsed method name is empty: a signature without any opening
parenthesis, or whose text before the first parenthesis is blank, is skipped
with no error; a signature with an unmatched opening parenthesis but a
non-empty name still generates a stub. -/
theorem c8_skip_iff_no_name (methodSig implName : String) (level : Int) :
    generateMethodImplementation methodSig implName level = "" ↔
      (parseMethodSignature methodSig).1 = "" := by
  constructor
  · intro he
    by_contra hne
    have hbe : ((parseMethodSignature methodSig).1 == "") = false := by
      simp [hne]
    simp only [generateMethodImplementation, hbe, Bool.false_eq_true, if_false] at he
    have hlen := congrArg String.length he
    rw [String.length_append] at hlen
    have h3 : ("// " : String).length = 3 := by decide
    have h0 : ("" : String).length = 0 := by decide
    omega
  · intro h
    simp only [generateMethodImplementation]
    rw [if_pos (by simp [h])]

/-- C9 (counterexample). The claim is false for the variable, constant and function
kinds: the variable extractor hands the declaration's own name to the graph
builder when the variable's type names itself, and the function extractor does
the same for a parameter typed with the function's own name. -/
theorem c9_counterexample :
    VariableDependencyExtractor.ExtractDependencies ⟨"Foo", "main", "Foo", "p", 0⟩ =
      ["Foo"] ∧
    "Foo" ∈ VariableDependencyExtractor.ExtractDependencies
      ⟨"Foo", "main", "Foo", "p", 0⟩ ∧
    "Bar" ∈ FunctionDependencyExtractor.ExtractDependencies
      ⟨"Bar", "main", "", ["x Bar"], [], "p", 0⟩ := by
  refine ⟨by decide, by decide, by decide⟩

/-- C9 (amended). Only the struct and interface dependency extractors exclude the
declaration's own name from the extracted dependency set; the variable (and
constant, function) extractors pass extracted names through unfiltered, so a
self-reference can reach the graph builder for those kinds. -/
theorem c9_self_exclusion :
    (∀ s : GoStruct, s.name ∉ StructDependencyExtractor.ExtractDependencies s) ∧
    (∀ i : GoInterface, i.name ∉ InterfaceDependencyExtractor.ExtractDependencies i) ∧
    "Foo" ∈ VariableDependencyExtractor.ExtractDependencies
      ⟨"Foo", "main", "Foo", "p", 0⟩ := by
  refine ⟨?_, ?_, by decide⟩
  · intro s hc
    have h1 := List.mem_dedup.mp hc
    have h2 := (List.mem_filter.mp h1).2
    simp at h2
  · intro i hc
    have h1 := List.mem_dedup.mp hc
    have h2 := (List.mem_filter.mp h1).2
    simp at h2

/-- C10. For every return type token whose text contains the substring "chan"
anywhere, getZeroValue returns "nil", never the composite empty-value
construction for that type name. -/
theorem c10_chan_substring (typ : String) (h : containsL "chan".data typ.data = true) :
    getZeroValue typ = "nil" := by
  rw [getZeroValue, if_pos]
  rw [h]
  simp

/-- C10 witness: the user-defined non-channel type name Merchant contains "chan"
as a substring, and getZeroValue maps it to "nil". -/
theorem c10_witness :
    containsL "chan".data "Merchant".data = true ∧ getZeroValue "Merchant" = "nil" :=
  ⟨by decide, c10_chan_substring "Merchant" (by decide)⟩
